import Mathlib

/-!
Shallow embedding of the plotnine/ggplot source under verification:
  * `src/plotnine/themes/themeable.py` — the `themeable` merge logic and the
    `Themeables` collection (update, iteration order, property lookup);
  * `src/plotnine/themes/theme.py` — `theme.add_theme`, `__add__`, `__iadd__`;
  * `src/ggplot/scales/scale_xy.py` — `scale_position_discrete`
    (train/reset/is_empty/map/limits/dimension) and the aesthetics lists.

Python dicts are embedded as association lists (first match wins; insertion
replaces in place or appends, matching dict update order); exceptions as
`Except`/`Option`; floats as `ℚ` (the algorithms involved use only ordered
field operations); Python truthiness of the relevant values explicitly.
-/

/-- A Python property value as stored in `themeable._properties`:
`None`, a string, or a number. -/
inductive PVal where
  | vnone : PVal
  | vstr (s : String) : PVal
  | vnum (q : ℚ) : PVal
deriving DecidableEq, Repr

/-- `themeable._properties` : a Python dict from property names to values,
embedded as an association list in insertion order. -/
abbrev Props := List (String × PVal)

/-- Python `d[k]` lookup (as `Option`): first binding of `k` wins. -/
def Props.pget? (m : Props) (k : String) : Option PVal :=
  (m.find? (fun kv => kv.1 == k)).map (·.2)

/-- Python `d[k] = v`: replace the existing binding in place, else append. -/
def Props.pinsert : Props → String → PVal → Props
  | [], k, v => [(k, v)]
  | kv :: rest, k, v =>
    if kv.1 == k then (k, v) :: rest else kv :: Props.pinsert rest k v

/-- Python `d.update(other)`: set each of `other`'s bindings in order. -/
def Props.pupdate (m other : Props) : Props :=
  other.foldl (fun acc kv => acc.pinsert kv.1 kv.2) m

/-- One `themeable` object (src/plotnine/themes/themeable.py).
`cls` is the class name (`type(self).__name__`), `mroTail` the names in
`type(self).mro()[1:-2]` (the classes strictly between the class itself and
`themeable`), `blank` the result of `is_blank()` (whether `theme_element`
is an `element_blank`; the element classes live outside the sources, so the
flag abstracts that instance check), and `props` is `_properties`. -/
structure Themeable where
  cls : String
  mroTail : List String
  blank : Bool
  props : Props
deriving DecidableEq, Repr

/-- `themeable.merge(other)`: raises `ValueError` (here `none`) when either
side is blank, otherwise `self._properties.update(other._properties)`. -/
def Themeable.merge (self other : Themeable) : Option Themeable :=
  if self.blank || other.blank then Option.none
  else some { self with props := self.props.pupdate other.props }

/-- The `Themeables` collection: a dict from class names to themeables. -/
abbrev Themeables := List (String × Themeable)

/-- Dict lookup in a `Themeables`: first binding of `k` wins. -/
def tlookup : Themeables → String → Option Themeable
  | [], _ => Option.none
  | kv :: rest, k => if kv.1 == k then some kv.2 else tlookup rest k

/-- Dict store `self[k] = v` in a `Themeables`. -/
def tinsert : Themeables → String → Themeable → Themeables
  | [], k, v => [(k, v)]
  | kv :: rest, k, v =>
    if kv.1 == k then (k, v) :: rest else kv :: tinsert rest k v

/-- Dict delete `del self[k]` in a `Themeables`. -/
def terase : Themeables → String → Themeables
  | [], _ => []
  | kv :: rest, k => if kv.1 == k then terase rest k else kv :: terase rest k

/-- The body of the inner loop of `Themeables.update`: for a class name `ck`
in the new themeable's mro, `self[ck].merge(new)` with `KeyError` passed
over and `ValueError` answered by `del self[ck]`. -/
def mergeStep (new : Themeable) (acc : Themeables) (ck : String) : Themeables :=
  match tlookup acc ck with
  | Option.none => acc
  | some child =>
    match child.merge new with
    | Option.none => terase acc ck
    | some m => tinsert acc ck m

/-- One iteration of `Themeables.update` (src/plotnine/themes/themeable.py,
lines 272-291): propagate `new` into every class of `new.__class__.mro()[1:-2]`
present in the collection, then merge `new` into the entry of its own name,
inserting `new` itself on `KeyError` or `ValueError`. -/
def Themeables.updateOne (s : Themeables) (new : Themeable) : Themeables :=
  let s1 := new.mroTail.foldl (mergeStep new) s
  match tlookup s1 new.cls with
  | Option.none => tinsert s1 new.cls new
  | some cur =>
    match cur.merge new with
    | Option.none => tinsert s1 new.cls new
    | some m => tinsert s1 new.cls m

/-- The effect of the inner loop of `Themeables.update` on the entry of an
affected class: absent stays absent; a present entry is deleted when it or
the new themeable is blank, else receives the new themeable's properties. -/
def mergeEffect (new : Themeable) : Option Themeable → Option Themeable
  | Option.none => Option.none
  | some child =>
    if child.blank || new.blank then Option.none
    else some { child with props := child.props.pupdate new.props }

/-- The effect of the final step of `Themeables.update` on the entry named
like the new themeable: inserted when absent, replaced by `new` when either
side is blank, else merged. -/
def finalMerge (new : Themeable) : Option Themeable → Themeable
  | Option.none => new
  | some cur =>
    if cur.blank || new.blank then new
    else { cur with props := cur.props.pupdate new.props }

/-- One registered `themeable` class: its name and the class names in
`mro()[:-2]` (itself first, then its ancestors up to but excluding
`themeable` and `object`). -/
structure ClassInfo where
  name : String
  mro : List String
deriving DecidableEq, Repr

/-- Modelled from the spec: `themeable._hierarchy` is built by
`RegistryHierarchyMeta` (plotnine/_utils/registry.py, not under src/).
Per the docstrings of `Themeables._dict` and `Themeables.getp`, for a class
name `k` it lists, in class-definition order (most specific first), the
names of every registered class whose mro contains `k`. -/
def hierarchy (reg : List ClassInfo) (k : String) : List String :=
  (reg.filter (fun c => decide (k ∈ c.mro))).map ClassInfo.name

/-- Python `name in self` for a `Themeables`. -/
def containsKey (s : Themeables) (n : String) : Bool :=
  (tlookup s n).isSome

/-- The body of the loops of `Themeables._dict`: record `name` when it is
stored in the collection and not yet recorded. -/
def addName (s : Themeables) (acc : List String) (n : String) : List String :=
  if containsKey s n = true ∧ n ∉ acc then acc ++ [n] else acc

/-- Fold `addName` over a list of candidate names. -/
def foldNames (s : Themeables) (acc : List String) (ns : List String) : List String :=
  ns.foldl (addName s) acc

/-- The key order of `Themeables._dict` (src/plotnine/themes/themeable.py,
lines 293-309): for each hierarchy key in definition order, walk its list in
reverse (general to specific), recording stored names once. -/
def Themeables.dictOrder (reg : List ClassInfo) (s : Themeables) : List String :=
  (reg.map ClassInfo.name).foldl
    (fun acc k => foldNames s acc ((hierarchy reg k).reverse)) []

/-- `Themeables.values()`: the stored themeables in `_dict` order. -/
def Themeables.values (reg : List ClassInfo) (s : Themeables) : List Themeable :=
  (Themeables.dictOrder reg s).filterMap (tlookup s)

/-- `Themeables.update(other)`: fold `updateOne` over `other.values()`. -/
def Themeables.update (reg : List ClassInfo) (s other : Themeables) : Themeables :=
  (Themeables.values reg other).foldl Themeables.updateOne s

/-- A `theme` object, restricted to the state the claims are about. -/
structure Theme where
  complete : Bool
  themeables : Themeables
deriving DecidableEq, Repr

/-- `theme.add_theme(other)` (src/plotnine/themes/theme.py, lines 364-382),
for a theme outside the plot context (`_is_setup` false): a complete `other`
is returned as is; otherwise `other`'s themeables are merged into `self`'s
and `self` is returned. -/
def Theme.add_theme (reg : List ClassInfo) (t1 t2 : Theme) : Theme :=
  if t2.complete then t2
  else { t1 with themeables := Themeables.update reg t1.themeables t2.themeables }

/-- The key argument of `Themeables.getp`: a plain themeable name or a
`(name, property)` pair. -/
inductive GetpKey where
  | strKey (n : String) : GetpKey
  | pairKey (n p : String) : GetpKey

/-- The loop of `Themeables.getp`: walk the hierarchy list, suppressing
`KeyError`, and return the first found value unless `scalar` is set and the
value is `None`. -/
def getpLoop (s : Themeables) (prop : String) (scalar : Bool) :
    List String → Option PVal
  | [] => Option.none
  | th :: rest =>
    match tlookup s th with
    | Option.none => getpLoop s prop scalar rest
    | some t =>
      match Props.pget? t.props prop with
      | Option.none => getpLoop s prop scalar rest
      | some v =>
        if !scalar || decide (v ≠ PVal.vnone) then some v
        else getpLoop s prop scalar rest

/-- `Themeables.getp` (src/plotnine/themes/themeable.py, lines 323-362).
A string key becomes `(key, "value")`. The source then computes
`scalar = key == "value"`, but at that point `key` is the tuple, and in
Python a tuple never equals a string, so `scalar` is always `False`. -/
def Themeables.getp (reg : List ClassInfo) (s : Themeables) (key : GetpKey)
    (default : PVal) : PVal :=
  let k : String × String :=
    match key with
    | GetpKey.strKey n => (n, "value")
    | GetpKey.pairKey n p => (n, p)
  let scalar : Bool := false
  (getpLoop s k.2 scalar (hierarchy reg k.1)).getD default

/-- The first property value found for `(name, prop)` along the themeable
hierarchy, `none` when no themeable in the hierarchy stores the property. -/
def findPropValue (reg : List ClassInfo) (s : Themeables) (name prop : String) :
    Option PVal :=
  (hierarchy reg name).findSome?
    (fun th => (tlookup s th).bind (fun t => Props.pget? t.props prop))

/-! ### Position scales (src/ggplot/scales/scale_xy.py) -/

/-- A numpy dtype kind character, as tested by `series.dtype.kind`. -/
inductive DtypeKind where
  | i | f | u | c | O | b | U | S | M | m
deriving DecidableEq, Repr

/-- Modelled from the spec: `CONTINUOUS_KINDS` from `ggplot.utils` (not under
src/) — the numeric dtype kinds `'ifuc'`. -/
def CONTINUOUS_KINDS : List DtypeKind :=
  [DtypeKind.i, DtypeKind.f, DtypeKind.u, DtypeKind.c]

/-- Modelled from the spec: `DISCRETE_KINDS` from `ggplot.utils` (not under
src/) — the categorical dtype kinds `'ObUS'`. -/
def DISCRETE_KINDS : List DtypeKind :=
  [DtypeKind.O, DtypeKind.b, DtypeKind.U, DtypeKind.S]

/-- A data value held by a series or a discrete range. -/
inductive Val where
  | q (x : ℚ) : Val
  | s (t : String) : Val
deriving DecidableEq, Repr

/-- A pandas series: its dtype kind and its values. -/
structure Series where
  kind : DtypeKind
  vals : List Val
deriving DecidableEq, Repr

def Val.toQ? : Val → Option ℚ
  | Val.q x => some x
  | Val.s _ => Option.none

/-- Modelled from the spec: `RangeContinuous.train` (from `.range`, not under
src/) accumulates the (min, max) extent of the numeric values seen so far. -/
def RangeContinuous.train (r : Option (ℚ × ℚ)) (vals : List Val) :
    Option (ℚ × ℚ) :=
  match vals.filterMap Val.toQ? with
  | [] => r
  | x :: xs =>
    let lo := xs.foldl min x
    let hi := xs.foldl max x
    match r with
    | Option.none => some (lo, hi)
    | some (a, b) => some (min a lo, max b hi)

/-- Modelled from the spec: the discrete `Range.train` (from `.range`, not
under src/) accumulates the distinct values seen so far, in first-seen
order. -/
def RangeDiscrete.train (r : Option (List Val)) (vals : List Val) :
    Option (List Val) :=
  match vals with
  | [] => r
  | _ =>
    some (vals.foldl (fun acc v => if v ∈ acc then acc else acc ++ [v]) (r.getD []))

/-- The state of a `scale_position_discrete`: the discrete range
(`self.range.range`), the continuous range (`self.range_c.range`) and the
user limits (`self._limits`); a fresh scale has all three `None`. -/
structure ScaleDisc where
  range : Option (List Val)
  range_c : Option (ℚ × ℚ)
  _limits : Option (List Val)
deriving DecidableEq, Repr

/-- `scale_position_discrete.train` (lines 49-58): a series of continuous
dtype kind trains `range_c`, any other series trains the discrete range. -/
def ScaleDisc.train (sc : ScaleDisc) (series : Series) : ScaleDisc :=
  if series.kind ∈ CONTINUOUS_KINDS then
    { sc with range_c := RangeContinuous.train sc.range_c series.vals }
  else
    { sc with range := RangeDiscrete.train sc.range series.vals }

/-- `scale_position_discrete.reset` (lines 39-42): only `range_c` is reset,
because the discrete values could not be recovered. -/
def ScaleDisc.reset (sc : ScaleDisc) : ScaleDisc :=
  { sc with range_c := Option.none }

/-- `scale_position_discrete.is_empty` (lines 44-47). -/
def ScaleDisc.is_empty (sc : ScaleDisc) : Bool :=
  sc.range.isNone && sc._limits.isNone && sc.range_c.isNone

/-- Python truthiness of an optional list (`None` and `[]` are falsy). -/
def truthy : Option (List Val) → Bool
  | Option.none => false
  | some l => !l.isEmpty

/-- The `limits` property (lines 70-82): `(0, 1)` for an empty scale (a
Python tuple, embedded as the two-element list), else the user limits, else
the discrete range, else `GgplotError`. -/
def ScaleDisc.limits (sc : ScaleDisc) : Except String (List Val) :=
  if sc.is_empty then Except.ok [Val.q 0, Val.q 1]
  else if truthy sc._limits then Except.ok (sc._limits.getD [])
  else if truthy sc.range then Except.ok (sc.range.getD [])
  else Except.error "GgplotError: Lost, do not know what the limits are."

/-- First index of `x` in a list, if present. -/
def firstIdx : List Val → Val → Option Nat
  | [], _ => Option.none
  | y :: ys, x => if y = x then some 0 else (firstIdx ys x).map (· + 1)

/-- Modelled from the spec: `match` from `ggplot.utils` (not under src/) —
R-style match giving, per element of `v1`, its first index in `lims`, with
`-1` for no match. -/
def matchIdx (v1 lims : List Val) : List Int :=
  v1.map (fun x =>
    match firstIdx lims x with
    | some j => (j : Int)
    | Option.none => -1)

/-- numpy indexing into `np.arange(1, len+1)`: a nonnegative index `j` gives
`j + 1`, a negative index wraps from the end. -/
def seqAt (len : Nat) (idx : Int) : Nat :=
  if 0 ≤ idx then idx.toNat + 1 else len - (-idx).toNat + 1

/-- `scale_position_discrete.map` (lines 60-68): falsy limits fall back to
the `limits` property; a series of discrete dtype kind is converted to the
1-based positions of its values in the limits; any other series is returned
unchanged. -/
def ScaleDisc.map (sc : ScaleDisc) (series : Series)
    (limitsArg : Option (List Val)) : Except String (List Val) := do
  let lims ← match limitsArg with
    | some l => if l.isEmpty then sc.limits else pure l
    | Option.none => sc.limits
  if series.kind ∈ DISCRETE_KINDS then
    pure ((matchIdx series.vals lims).map
      (fun i => Val.q ((seqAt lims.length i : ℕ) : ℚ)))
  else
    pure series.vals

/-- Modelled from the spec: `mizani.bounds.expand_range` (the external
numeric collaborator): `None` passes through; a zero-width range widens by
`zero_width`; otherwise the range grows by `(hi - lo) * mul + add` on each
side. -/
def expand_range (r : Option (ℚ × ℚ)) (mul add zero_width : ℚ) :
    Option (ℚ × ℚ) :=
  match r with
  | Option.none => Option.none
  | some (lo, hi) =>
    if lo = hi then some (lo - zero_width / 2, lo + zero_width / 2)
    else
      let dx := (hi - lo) * mul + add
      some (lo - dx, hi + dx)

/-- `scale_position_discrete.dimension` (lines 84-105), embedded statement by
statement: both expansions are computed before the branch dispatch, and the
discrete expansion evaluates `len(d_range)`, which raises `TypeError` when
the discrete range is `None`. -/
def ScaleDisc.dimension (sc : ScaleDisc) (expand : ℚ × ℚ) :
    Except String (ℚ × ℚ) := do
  let c_range := sc.range_c
  let d_range := sc.range
  let continuous := expand_range c_range expand.1 0 1
  let discrete ← match d_range with
    | Option.none =>
      Except.error "TypeError: object of type NoneType has no len"
    | some l => pure (expand_range (some (1, (l.length : ℚ))) 0 expand.2 1)
  if sc.is_empty then
    pure (0, 1)
  else
    match d_range with
    | Option.none =>
      match continuous with
      | some p => pure p
      | Option.none => Except.error "unreachable"
    | some _ =>
      match c_range with
      | Option.none => pure (discrete.getD (0, 0))
      | some _ =>
        let cp := continuous.getD (0, 0)
        let dp := discrete.getD (0, 0)
        pure (min (min cp.1 cp.2) (min dp.1 dp.2),
              max (max cp.1 cp.2) (max dp.1 dp.2))

/-- `scale_y_datetime.aesthetics` (line 158), exactly as written in the
source, including the `'ymay'` entry. -/
def scale_y_datetime_aesthetics : List String := ["y", "ymin", "ymay", "yend"]

/-- `scale_y_timedelta.aesthetics` (line 172), exactly as written in the
source, including the `'ymay'` entry. -/
def scale_y_timedelta_aesthetics : List String := ["y", "ymin", "ymay", "yend"]

/-- `scale_y_continuous.aesthetics` (lines 145-147). -/
def scale_y_continuous_aesthetics : List String :=
  ["y", "ymin", "ymax", "yend", "yintercept", "ymin_final", "ymax_final",
   "lower", "middle", "upper"]

/-- `scale_y_discrete.aesthetics` (line 137). -/
def scale_y_discrete_aesthetics : List String := ["y", "ymin", "ymax", "yend"]

/-- `scale_x_datetime.aesthetics` (line 153). -/
def scale_x_datetime_aesthetics : List String := ["x", "xmin", "xmax", "xend"]

/-! ### Object identity for `+`, `+=`, `add_theme` (src/plotnine/themes/theme.py)

The aliasing claims are embedded with an explicit store of theme objects:
addresses are indices, `deepcopy` allocates a fresh cell with the same value
(`__deepcopy__` copies everything except the figure references, which are
not part of the embedded state). -/

def defaultTheme : Theme := { complete := false, themeables := [] }

abbrev Store := List Theme

def storeGet (st : Store) (i : Nat) : Theme :=
  st.getD i defaultTheme

/-- The right operand of `theme.__add__`: another theme (by reference) or a
non-theme object. -/
inductive Operand where
  | themeRef (j : Nat) : Operand
  | notTheme : Operand

/-- `theme.add_theme` as a store operation: returns the reference to the
result. A complete `other` is returned as is and the store is untouched;
otherwise cell `i` is updated in place and its own reference returned. -/
def addThemeOp (reg : List ClassInfo) (st : Store) (i j : Nat) : Store × Nat :=
  if (storeGet st j).complete then (st, j)
  else
    (st.set i { storeGet st i with
        themeables := Themeables.update reg (storeGet st i).themeables
          (storeGet st j).themeables }, i)

/-- `theme.__add__` (lines 384-392): a non-theme raises `PlotnineError`;
otherwise `self` is rebound to a deep copy (a fresh cell) and `add_theme`
runs on the copy. -/
def addOp (reg : List ClassInfo) (st : Store) (i : Nat) (x : Operand) :
    Except String (Store × Nat) :=
  match x with
  | Operand.notTheme => Except.error "PlotnineError: Adding theme failed"
  | Operand.themeRef j =>
    Except.ok (addThemeOp reg (st ++ [storeGet st i]) st.length j)

/-- `theme.__iadd__` (lines 438-443): `self.add_theme(other)` with the
returned reference discarded, then `self` is returned. -/
def iaddOp (reg : List ClassInfo) (st : Store) (i j : Nat) : Store × Nat :=
  ((addThemeOp reg st i j).1, i)

/-! ### Concrete data used by the counterexamples and witnesses -/

/-- The `axis_line` family of themeable classes, with `mro()[:-2]` as defined
in src/plotnine/themes/themeable.py (lines 869-922). -/
def regAxis : List ClassInfo :=
  [⟨"axis_line_x", ["axis_line_x"]⟩,
   ⟨"axis_line_y", ["axis_line_y"]⟩,
   ⟨"axis_line", ["axis_line", "axis_line_x", "axis_line_y"]⟩]

/-- An `axis_line_x` themeable with `color` red. -/
def axLineXRed : Themeable :=
  ⟨"axis_line_x", [], false, [("color", PVal.vstr "red")]⟩

/-- An `axis_line` themeable with `color` blue. -/
def axLineBlue : Themeable :=
  ⟨"axis_line", ["axis_line_x", "axis_line_y"], false,
   [("color", PVal.vstr "blue")]⟩

/-- A blank `axis_line` themeable (`element_blank`). -/
def axLineBlank : Themeable :=
  ⟨"axis_line", ["axis_line_x", "axis_line_y"], true, []⟩

/-- A collection holding only the non-blank `axis_line_x` themeable. -/
def sAxX : Themeables := [("axis_line_x", axLineXRed)]

/-- A partial theme holding only `axis_line_x` (color red). -/
def t1C : Theme := ⟨false, [("axis_line_x", axLineXRed)]⟩

/-- A partial theme holding only `axis_line` (color blue). -/
def t2C : Theme := ⟨false, [("axis_line", axLineBlue)]⟩

/-- A collection with a `None`-valued `color` on the specific themeable and
a set `color` on the general one. -/
def sGetp : Themeables :=
  [("axis_line_x", ⟨"axis_line_x", [], false, [("color", PVal.vnone)]⟩),
   ("axis_line", axLineBlue)]

/-- A two-theme store: the partial `t1C` and a complete theme. -/
def stC8 : Store := [t1C, ⟨true, []⟩]

/-- A fresh `scale_position_discrete`: nothing trained, no user limits. -/
def scEmpty : ScaleDisc := ⟨Option.none, Option.none, Option.none⟩

/-- A discrete position scale trained only with continuous data. -/
def scContOnly : ScaleDisc := ⟨Option.none, some (2, 5), Option.none⟩

/-! ### Order predicates for the `_dict` iteration claim -/

/-- Every occurrence of `B` in `l` is preceded by an occurrence of `A`. -/
def OccPrec (l : List String) (A B : String) : Prop :=
  ∀ l1 l2, l = l1 ++ B :: l2 → A ∈ l1

/-- Every occurrence of `B` in `l` is followed by an occurrence of `A`. -/
def OccFollS (l : List String) (A B : String) : Prop :=
  ∀ l1 l2, l = l1 ++ B :: l2 → A ∈ l2

/-- Well-formedness of a class table: every proper member of a class's mro
names a class defined earlier in the table (as Python guarantees for base
classes). -/
def DefinedBefore (reg : List ClassInfo) : Prop :=
  ∀ l1 c l2, reg = l1 ++ c :: l2 → ∀ b ∈ c.mro, b ≠ c.name →
    b ∈ l1.map ClassInfo.name

/-- Executable check of `DefinedBefore`, threading the names seen so far. -/
def orderOK (seen : List String) : List ClassInfo → Bool
  | [] => true
  | c :: rest =>
    (c.mro.all (fun b => decide (b = c.name) || decide (b ∈ seen)))
      && orderOK (seen ++ [c.name]) rest

/-- The flat stream of names walked by `Themeables._dict`: for each key in
definition order, its hierarchy list reversed. -/
def flatStream (reg : List ClassInfo) : List String :=
  (reg.map ClassInfo.name).foldr
    (fun k acc => (hierarchy reg k).reverse ++ acc) []

/-! ## Dictionary lemmas -/

theorem tlookup_tinsert_self (s : Themeables) (k : String) (v : Themeable) :
    tlookup (tinsert s k v) k = some v := by
  induction s with
  | nil => simp [tinsert, tlookup]
  | cons kv rest ih =>
    by_cases h : kv.1 = k
    · simp [tinsert, tlookup, h]
    · simp [tinsert, tlookup, h, ih]

theorem tlookup_tinsert_ne (s : Themeables) (k k' : String) (v : Themeable)
    (h : k' ≠ k) : tlookup (tinsert s k v) k' = tlookup s k' := by
  induction s with
  | nil => simp [tinsert, tlookup, Ne.symm h]
  | cons kv rest ih =>
    by_cases hk : kv.1 = k
    · simp [tinsert, tlookup, hk, Ne.symm h]
    · by_cases hk' : kv.1 = k'
      · simp [tinsert, tlookup, hk, hk', h]
      · simp [tinsert, tlookup, hk, hk', ih]

theorem tlookup_terase_self (s : Themeables) (k : String) :
    tlookup (terase s k) k = Option.none := by
  induction s with
  | nil => simp [terase, tlookup]
  | cons kv rest ih =>
    by_cases h : kv.1 = k
    · simp [terase, h, ih]
    · simp [terase, tlookup, h, ih]

theorem tlookup_terase_ne (s : Themeables) (k k' : String) (h : k' ≠ k) :
    tlookup (terase s k) k' = tlookup s k' := by
  induction s with
  | nil => simp [terase, tlookup]
  | cons kv rest ih =>
    by_cases hk : kv.1 = k
    · have hk' : kv.1 ≠ k' := by rw [hk]; exact Ne.symm h
      simp [terase, tlookup, hk, hk', ih, Ne.symm h]
    · by_cases hk' : kv.1 = k'
      · simp [terase, tlookup, hk, hk', h]
      · simp [terase, tlookup, hk, hk', ih]

theorem mergeStep_self (new : Themeable) (s : Themeables) (ck : String) :
    tlookup (mergeStep new s ck) ck = mergeEffect new (tlookup s ck) := by
  unfold mergeStep
  cases h : tlookup s ck with
  | none => simp [h, mergeEffect]
  | some child =>
    unfold Themeable.merge mergeEffect
    by_cases hb : (child.blank || new.blank) = true
    · simp [hb, tlookup_terase_self]
    · simp [hb, tlookup_tinsert_self]

theorem mergeStep_frame (new : Themeable) (s : Themeables) (ck kk : String)
    (h : kk ≠ ck) : tlookup (mergeStep new s ck) kk = tlookup s kk := by
  unfold mergeStep
  cases hc : tlookup s ck with
  | none => rfl
  | some child =>
    unfold Themeable.merge
    by_cases hb : (child.blank || new.blank) = true
    · simp [hb, tlookup_terase_ne _ _ _ h]
    · simp [hb, tlookup_tinsert_ne _ _ _ _ h]

theorem foldMerge_frame (new : Themeable) (k : String) :
    ∀ (l : List String) (s : Themeables), k ∉ l →
      tlookup (l.foldl (mergeStep new) s) k = tlookup s k := by
  intro l
  induction l with
  | nil => intro s _; rfl
  | cons a rest ih =>
    intro s hk
    have h1 : k ≠ a := fun h => hk (h ▸ List.mem_cons_self a rest)
    have h2 : k ∉ rest := fun h => hk (List.mem_cons_of_mem a h)
    simp only [List.foldl_cons]
    rw [ih _ h2, mergeStep_frame _ _ _ _ h1]

theorem foldMerge_at (new : Themeable) (ck : String) :
    ∀ (l : List String) (s : Themeables), l.Nodup → ck ∈ l →
      tlookup (l.foldl (mergeStep new) s) ck = mergeEffect new (tlookup s ck) := by
  intro l
  induction l with
  | nil => intro s _ h; cases h
  | cons a rest ih =>
    intro s hnd hck
    have hnd1 : a ∉ rest := (List.nodup_cons.mp hnd).1
    have hnd2 : rest.Nodup := (List.nodup_cons.mp hnd).2
    simp only [List.foldl_cons]
    by_cases h : ck = a
    · subst h
      rw [foldMerge_frame _ _ _ _ hnd1, mergeStep_self]
    · have hrest : ck ∈ rest := by
        rcases List.mem_cons.mp hck with h' | h'
        · exact absurd h' h
        · exact h'
      rw [ih _ hnd2 hrest, mergeStep_frame _ _ _ _ h]

theorem updateOne_lookup_ne (s : Themeables) (new : Themeable) (k : String)
    (h : k ≠ new.cls) :
    tlookup (Themeables.updateOne s new) k =
      tlookup (new.mroTail.foldl (mergeStep new) s) k := by
  unfold Themeables.updateOne
  cases hc : tlookup (new.mroTail.foldl (mergeStep new) s) new.cls with
  | none => simp [hc, tlookup_tinsert_ne _ _ _ _ h]
  | some cur =>
    cases hm : cur.merge new with
    | none => simp [hc, hm, tlookup_tinsert_ne _ _ _ _ h]
    | some m => simp [hc, hm, tlookup_tinsert_ne _ _ _ _ h]

theorem updateOne_frame (s : Themeables) (new : Themeable) (k : String)
    (h1 : k ≠ new.cls) (h2 : k ∉ new.mroTail) :
    tlookup (Themeables.updateOne s new) k = tlookup s k := by
  rw [updateOne_lookup_ne _ _ _ h1, foldMerge_frame _ _ _ _ h2]

theorem updateOne_at_cls (s : Themeables) (new : Themeable)
    (h : new.cls ∉ new.mroTail) :
    tlookup (Themeables.updateOne s new) new.cls =
      some (finalMerge new (tlookup s new.cls)) := by
  have hfold : tlookup (new.mroTail.foldl (mergeStep new) s) new.cls =
      tlookup s new.cls := foldMerge_frame _ _ _ _ h
  simp only [Themeables.updateOne, hfold]
  cases hc : tlookup s new.cls with
  | none => simp [hc, finalMerge, tlookup_tinsert_self]
  | some cur =>
    simp only [hc]
    unfold Themeable.merge finalMerge
    by_cases hb : (cur.blank || new.blank) = true
    · simp [hb, tlookup_tinsert_self]
    · simp [hb, tlookup_tinsert_self]

theorem updateOne_at_child (s : Themeables) (new : Themeable) (ck : String)
    (h1 : new.cls ∉ new.mroTail) (h2 : new.mroTail.Nodup)
    (hck : ck ∈ new.mroTail) :
    tlookup (Themeables.updateOne s new) ck =
      mergeEffect new (tlookup s ck) := by
  have hne : ck ≠ new.cls := fun h => h1 (h ▸ hck)
  rw [updateOne_lookup_ne _ _ _ hne, foldMerge_at _ _ _ _ h2 hck]

theorem tlookup_mem (s : Themeables) (n : String) (th : Themeable)
    (h : tlookup s n = some th) : ∃ p ∈ s, p.2 = th := by
  induction s with
  | nil => simp [tlookup] at h
  | cons kv rest ih =>
    by_cases hk : kv.1 = n
    · simp [tlookup, hk] at h
      exact ⟨kv, List.mem_cons_self _ _, h⟩
    · simp only [tlookup, hk, beq_iff_eq, if_false] at h
      obtain ⟨p, hp, hpe⟩ := ih h
      exact ⟨p, List.mem_cons_of_mem _ hp, hpe⟩

theorem values_mem (reg : List ClassInfo) (s : Themeables) (th : Themeable)
    (h : th ∈ Themeables.values reg s) : ∃ p ∈ s, p.2 = th := by
  unfold Themeables.values at h
  obtain ⟨n, _, hl⟩ := List.mem_filterMap.mp h
  exact tlookup_mem s n th hl

theorem foldUpdate_frame (k : String) :
    ∀ (L : List Themeable) (s : Themeables),
      (∀ th ∈ L, th.cls ≠ k ∧ k ∉ th.mroTail) →
      tlookup (L.foldl Themeables.updateOne s) k = tlookup s k := by
  intro L
  induction L with
  | nil => intro s _; rfl
  | cons th rest ih =>
    intro s hL
    have h1 := hL th (List.mem_cons_self _ _)
    simp only [List.foldl_cons]
    rw [ih _ (fun t ht => hL t (List.mem_cons_of_mem _ ht)),
      updateOne_frame _ _ _ (Ne.symm h1.1) h1.2]

theorem update_frame (reg : List ClassInfo) (s other : Themeables) (k : String)
    (h : ∀ p ∈ other, p.2.cls ≠ k ∧ k ∉ p.2.mroTail) :
    tlookup (Themeables.update reg s other) k = tlookup s k := by
  unfold Themeables.update
  apply foldUpdate_frame
  intro th ht
  obtain ⟨p, hp, hpe⟩ := values_mem reg other th ht
  exact hpe ▸ h p hp

/-- C2 (amended): when a `Themeables` collection is updated with a new
themeable, for each class in the new themeable's MRO strictly between itself
and `themeable`: an absent entry stays absent, a present entry is deleted
when *either* it or the new themeable is blank and otherwise receives the
new themeable's properties; the new themeable is merged into the same-named
entry (or inserted when absent, or replaces it when a blank is involved);
every other entry is unchanged. -/
theorem Themeables.updateOne_spec (s : Themeables) (new : Themeable)
    (h1 : new.cls ∉ new.mroTail) (h2 : new.mroTail.Nodup) :
    (∀ ck ∈ new.mroTail,
        tlookup (Themeables.updateOne s new) ck = mergeEffect new (tlookup s ck))
    ∧ tlookup (Themeables.updateOne s new) new.cls =
        some (finalMerge new (tlookup s new.cls))
    ∧ (∀ k, k ∉ new.mroTail → k ≠ new.cls →
        tlookup (Themeables.updateOne s new) k = tlookup s k) :=
  ⟨fun ck hck => updateOne_at_child s new ck h1 h2 hck,
   updateOne_at_cls s new h1,
   fun k hk1 hk2 => updateOne_frame s new k hk2 hk1⟩

/-- C2 counterexample: updating a collection holding a *non-blank*
`axis_line_x` with a *blank* `axis_line` deletes the `axis_line_x` entry;
the claim, which only allows deletion when the existing entry is blank,
says it should have been merged and kept. -/
theorem Themeables.updateOne_blank_deletes_nonblank_child :
    tlookup sAxX "axis_line_x" = some axLineXRed
    ∧ axLineXRed.blank = false
    ∧ axLineBlank.blank = true
    ∧ tlookup (Themeables.updateOne sAxX axLineBlank) "axis_line_x" =
        Option.none := by
  decide

theorem Themeables.updateOne_spec_witness :
    tlookup (Themeables.updateOne sAxX axLineBlue) "axis_line_x" =
      mergeEffect axLineBlue (tlookup sAxX "axis_line_x") :=
  (Themeables.updateOne_spec sAxX axLineBlue (by decide) (by decide)).1
    "axis_line_x" (by decide)

/-- C1 (amended): `t1.add_theme(t2)` returns `t2` itself when `t2` is
complete; when `t2` is partial the result is `t1` with its themeables
updated by `t2`'s via `Themeables.update` — which can also merge into, or
delete, entries of `t1` that are more specific than a themeable of `t2` —
and every themeable of `t1` neither named by `t2` nor in the MRO of one of
`t2`'s themeables is left unchanged. -/
theorem Theme.add_theme_spec (reg : List ClassInfo) (t1 t2 : Theme) :
    (t2.complete = true → Theme.add_theme reg t1 t2 = t2)
    ∧ (t2.complete = false →
        (Theme.add_theme reg t1 t2).complete = t1.complete
        ∧ (Theme.add_theme reg t1 t2).themeables =
            Themeables.update reg t1.themeables t2.themeables
        ∧ ∀ k, (∀ p ∈ t2.themeables, p.2.cls ≠ k ∧ k ∉ p.2.mroTail) →
            tlookup (Theme.add_theme reg t1 t2).themeables k =
              tlookup t1.themeables k) := by
  constructor
  · intro h; simp [Theme.add_theme, h]
  · intro h
    have he : (Theme.add_theme reg t1 t2).themeables =
        Themeables.update reg t1.themeables t2.themeables := by
      simp [Theme.add_theme, h]
    refine ⟨by simp [Theme.add_theme, h], he, ?_⟩
    intro k hk
    rw [he]
    exact update_frame reg t1.themeables t2.themeables k hk

/-- C1 counterexample: adding the partial theme `t2C`, which sets only
`axis_line`, changes the `axis_line_x` themeable of `t1C` even though `t2C`
names no themeable called `axis_line_x` — refuting "every themeable of t1
not named by t2 left unchanged". -/
theorem Theme.add_theme_touches_more_specific :
    t2C.complete = false
    ∧ (∀ p ∈ t2C.themeables, p.2.cls ≠ "axis_line_x")
    ∧ tlookup (Theme.add_theme regAxis t1C t2C).themeables "axis_line_x" ≠
        tlookup t1C.themeables "axis_line_x" := by
  decide

theorem Theme.add_theme_spec_witness :
    Theme.add_theme regAxis t1C ⟨true, []⟩ = ⟨true, []⟩
    ∧ tlookup (Theme.add_theme regAxis t1C t2C).themeables "plot_title" =
        tlookup t1C.themeables "plot_title" :=
  ⟨(Theme.add_theme_spec regAxis t1C ⟨true, []⟩).1 rfl,
   ((Theme.add_theme_spec regAxis t1C t2C).2 rfl).2.2 "plot_title" (by decide)⟩

/-- C3: training a discrete position scale with a series of continuous dtype
kind updates only `range_c` and leaves the discrete range (and the user
limits) unchanged; any other series updates only the discrete range and
leaves `range_c` unchanged; `reset` clears only `range_c`. -/
theorem ScaleDisc.train_reset_frame (sc : ScaleDisc) (series : Series) :
    (ScaleDisc.train sc series).range =
      (if series.kind ∈ CONTINUOUS_KINDS then sc.range
       else RangeDiscrete.train sc.range series.vals)
    ∧ (ScaleDisc.train sc series).range_c =
      (if series.kind ∈ CONTINUOUS_KINDS then
        RangeContinuous.train sc.range_c series.vals
       else sc.range_c)
    ∧ (ScaleDisc.train sc series)._limits = sc._limits
    ∧ (ScaleDisc.reset sc).range = sc.range
    ∧ (ScaleDisc.reset sc).range_c = Option.none
    ∧ (ScaleDisc.reset sc)._limits = sc._limits := by
  unfold ScaleDisc.train ScaleDisc.reset
  by_cases h : series.kind ∈ CONTINUOUS_KINDS <;> simp [h]

/-- C9: a discrete position scale trained only with continuous data (so not
empty, but with discrete range and user limits unset) raises `GgplotError`
from the `limits` property; an entirely empty scale returns `(0, 1)`. -/
theorem ScaleDisc.limits_spec (s t : ScaleDisc)
    (h1 : s.range = Option.none) (h2 : s._limits = Option.none)
    (h3 : s.range_c.isSome = true) (h4 : t.is_empty = true) :
    s.limits =
      Except.error "GgplotError: Lost, do not know what the limits are."
    ∧ t.limits = Except.ok [Val.q 0, Val.q 1] := by
  constructor
  · have he : s.is_empty = false := by
      unfold ScaleDisc.is_empty
      cases hc : s.range_c with
      | none => rw [hc] at h3; simp at h3
      | some v => simp [h1, h2, hc]
    simp [ScaleDisc.limits, he, h1, h2, truthy]
  · simp [ScaleDisc.limits, h4]

theorem ScaleDisc.limits_spec_witness :
    scContOnly.limits =
      Except.error "GgplotError: Lost, do not know what the limits are."
    ∧ scEmpty.limits = Except.ok [Val.q 0, Val.q 1] :=
  ScaleDisc.limits_spec scContOnly scEmpty rfl rfl rfl rfl

/-- C5 evaluation: `dimension()` computes `len(d_range)` before any branch
is taken, so a fresh (empty) scale and a scale trained only with continuous
data both raise `TypeError` instead of returning `(0, 1)` resp. the expanded
continuous range, contradicting the claim and the method's own docstring. -/
theorem ScaleDisc.dimension_raises_on_missing_discrete_range :
    scEmpty.is_empty = true
    ∧ ScaleDisc.dimension scEmpty (0, 0) =
        Except.error "TypeError: object of type NoneType has no len"
    ∧ scContOnly.range = Option.none
    ∧ scContOnly.is_empty = false
    ∧ ScaleDisc.dimension scContOnly (0, 0) =
        Except.error "TypeError: object of type NoneType has no len" := by
  exact ⟨rfl, rfl, rfl, rfl, rfl⟩

/-- C6 evaluation: `scale_y_datetime` and `scale_y_timedelta` list the
aesthetic `'ymay'` — a typo — instead of the `'ymax'` that every sibling
scale carries and that the claim states. -/
theorem scale_y_transformed_aesthetics_typo :
    "ymax" ∉ scale_y_datetime_aesthetics
    ∧ "ymay" ∈ scale_y_datetime_aesthetics
    ∧ "ymax" ∉ scale_y_timedelta_aesthetics
    ∧ "ymay" ∈ scale_y_timedelta_aesthetics
    ∧ "ymax" ∈ scale_y_continuous_aesthetics
    ∧ "ymax" ∈ scale_y_discrete_aesthetics
    ∧ "xmax" ∈ scale_x_datetime_aesthetics := by
  decide

theorem firstIdx_get? (l : List Val) : ∀ (j : Nat) (x : Val), l.Nodup →
    l.get? j = some x → firstIdx l x = some j := by
  induction l with
  | nil => intro j x _ h; simp at h
  | cons y ys ih =>
    intro j x hnd h
    cases j with
    | zero =>
      simp only [List.get?_cons_zero, Option.some.injEq] at h
      simp [firstIdx, h]
    | succ j =>
      simp only [List.get?_cons_succ] at h
      have hx : x ∈ ys := List.get?_mem h
      have hy : y ∉ ys := (List.nodup_cons.mp hnd).1
      have hne : y ≠ x := fun he => hy (he ▸ hx)
      simp [firstIdx, hne, ih j x (List.nodup_cons.mp hnd).2 h]

/-- C4: mapping a series of discrete dtype kind converts its values to
integers starting at 1 — a value equal to the `j`-th (0-based) entry of the
limits maps to `j + 1` — and a series of non-discrete dtype kind is returned
unchanged. -/
theorem ScaleDisc.map_spec (sc : ScaleDisc) (series : Series)
    (lims : List Val) (hne : lims ≠ []) :
    ((series.kind ∈ DISCRETE_KINDS) →
      ∃ out, ScaleDisc.map sc series (some lims) = Except.ok out
        ∧ out.length = series.vals.length
        ∧ ∀ k j x, series.vals.get? k = some x → lims.get? j = some x →
            lims.Nodup → out.get? k = some (Val.q ((j : ℚ) + 1)))
    ∧ ((series.kind ∉ DISCRETE_KINDS) →
        ScaleDisc.map sc series (some lims) = Except.ok series.vals) := by
  have hie : lims.isEmpty = false := by
    cases lims with
    | nil => exact absurd rfl hne
    | cons a l => rfl
  constructor
  · intro hd
    refine ⟨(matchIdx series.vals lims).map
      (fun i => Val.q ((seqAt lims.length i : ℕ) : ℚ)), ?_, ?_, ?_⟩
    · simp only [ScaleDisc.map, hie, Bool.false_eq_true, if_false, hd,
        if_true, bind_pure_comp]
      simp [hd]
      rfl
    · simp [matchIdx]
    · intro k j x hk hj hnd
      have hfi : firstIdx lims x = some j := firstIdx_get? lims j x hnd hj
      have hseq : seqAt lims.length ((j : Nat) : Int) = j + 1 := by
        simp [seqAt]
      rw [matchIdx, List.map_map]
      rw [List.get?_eq_getElem?, List.getElem?_map]
      rw [List.get?_eq_getElem?] at hk
      rw [hk]
      simp [Function.comp, hfi, hseq, Nat.cast_add, Nat.cast_one]
  · intro hnd
    simp only [ScaleDisc.map, hie]
    simp [hnd]
    rfl

theorem ScaleDisc.map_spec_witness :
    ScaleDisc.map scEmpty ⟨DtypeKind.f, [Val.q 7]⟩ (some [Val.s "a"]) =
      Except.ok [Val.q 7]
    ∧ ScaleDisc.map scEmpty ⟨DtypeKind.O, [Val.s "b"]⟩
        (some [Val.s "a", Val.s "b"]) = Except.ok [Val.q 2] :=
  ⟨(ScaleDisc.map_spec scEmpty ⟨DtypeKind.f, [Val.q 7]⟩ [Val.s "a"]
      (by decide)).2 (by decide),
   rfl⟩

theorem getpLoop_eq_findSome? (s : Themeables) (prop : String) :
    ∀ l : List String, getpLoop s prop false l =
      l.findSome? (fun th => (tlookup s th).bind
        (fun t => Props.pget? t.props prop)) := by
  intro l
  induction l with
  | nil => rfl
  | cons th rest ih =>
    cases h : tlookup s th with
    | none => simp [getpLoop, List.findSome?_cons, h, ih]
    | some t =>
      cases hp : Props.pget? t.props prop with
      | none => simp [getpLoop, List.findSome?_cons, h, hp, ih]
      | some v => simp [getpLoop, List.findSome?_cons, h, hp]

/-- C10: `getp` returns the property value of the first themeable along the
inheritance hierarchy (most specific first) whose properties contain the
requested name — even when that stored value is `None`, since the source's
`scalar` flag compares a tuple with a string and is therefore always false —
and the supplied default only when no themeable in the hierarchy has the
property at all. -/
theorem Themeables.getp_spec (reg : List ClassInfo) (s : Themeables)
    (name prop : String) (default : PVal) :
    Themeables.getp reg s (GetpKey.pairKey name prop) default =
      (findPropValue reg s name prop).getD default
    ∧ Themeables.getp reg s (GetpKey.strKey name) default =
      (findPropValue reg s name "value").getD default
    ∧ ((findPropValue reg s name prop = Option.none) ↔
        ∀ th ∈ hierarchy reg name, ∀ t, tlookup s th = some t →
          Props.pget? t.props prop = Option.none) := by
  refine ⟨?_, ?_, ?_⟩
  · simp [Themeables.getp, findPropValue, getpLoop_eq_findSome?]
  · simp [Themeables.getp, findPropValue, getpLoop_eq_findSome?]
  · rw [findPropValue, List.findSome?_eq_none_iff]
    constructor
    · intro h th hth t ht
      have hh := h th hth
      rw [ht] at hh
      simpa using hh
    · intro h th hth
      cases ht : tlookup s th with
      | none => rfl
      | some t => simpa using h th hth t ht

theorem Themeables.getp_spec_witness :
    Themeables.getp regAxis sGetp (GetpKey.pairKey "axis_line_x" "color")
      (PVal.vstr "fallback") = PVal.vnone :=
  ((Themeables.getp_spec regAxis sGetp "axis_line_x" "color"
      (PVal.vstr "fallback")).1).trans (by rfl)

theorem getD_append_lt {α : Type} (d : α) :
    ∀ (l l' : List α) (k : Nat), k < l.length →
      (l ++ l').getD k d = l.getD k d := by
  intro l
  induction l with
  | nil => intro l' k h; simp at h
  | cons a rest ih =>
    intro l' k h
    cases k with
    | zero => rfl
    | succ k =>
      simp only [List.cons_append, List.getD_cons_succ]
      exact ih l' k (Nat.lt_of_succ_lt_succ h)

theorem getD_set_ne {α : Type} (d : α) :
    ∀ (l : List α) (n : Nat) (a : α) (k : Nat), n ≠ k →
      (l.set n a).getD k d = l.getD k d := by
  intro l
  induction l with
  | nil => intro n a k _; rfl
  | cons x rest ih =>
    intro n a k h
    cases n with
    | zero =>
      cases k with
      | zero => exact absurd rfl h
      | succ k => rfl
    | succ n =>
      cases k with
      | zero => rfl
      | succ k =>
        simp only [List.set_cons_succ, List.getD_cons_succ]
        exact ih n a k (fun he => h (by rw [he]))

/-- C8 (amended): `t1 + t2` never changes any pre-existing theme object —
the addition happens on a fresh deep copy; `t1.add_theme(t2)` and `t1 += t2`
allocate nothing and, when `t2` is partial, update `t1`'s cell in place;
when `t2` is complete they leave every cell unchanged (`add_theme` returns
the reference to `t2`, and `__iadd__` discards that result, so `t1 += t2`
still yields `t1`); and `t1 + x` raises `PlotnineError` for a non-theme
`x`. -/
theorem Theme.add_ops_spec (reg : List ClassInfo) (st : Store) (i j : Nat)
    (hi : i < st.length) (hj : j < st.length) :
    (∀ st' n, addOp reg st i (Operand.themeRef j) = Except.ok (st', n) →
        ∀ k, k < st.length → storeGet st' k = storeGet st k)
    ∧ ((storeGet st j).complete = false →
        addThemeOp reg st i j =
          (st.set i { storeGet st i with
              themeables := Themeables.update reg (storeGet st i).themeables
                (storeGet st j).themeables }, i)
        ∧ iaddOp reg st i j =
          (st.set i { storeGet st i with
              themeables := Themeables.update reg (storeGet st i).themeables
                (storeGet st j).themeables }, i))
    ∧ ((storeGet st j).complete = true →
        addThemeOp reg st i j = (st, j) ∧ iaddOp reg st i j = (st, i))
    ∧ addOp reg st i Operand.notTheme =
        Except.error "PlotnineError: Adding theme failed" := by
  have hs1 : ∀ k, k < st.length →
      storeGet (st ++ [storeGet st i]) k = storeGet st k := by
    intro k hk
    unfold storeGet
    exact getD_append_lt _ _ _ _ hk
  refine ⟨?_, ?_, ?_, rfl⟩
  · intro st' n h k hk
    simp only [addOp, Except.ok.injEq] at h
    unfold addThemeOp at h
    by_cases hc : (storeGet (st ++ [storeGet st i]) j).complete = true
    · rw [if_pos hc] at h
      injection h.symm with h1 h2
      rw [h1]
      exact hs1 k hk
    · rw [if_neg hc] at h
      injection h.symm with h1 h2
      rw [h1]
      unfold storeGet
      rw [getD_set_ne _ _ _ _ _ (Nat.ne_of_gt hk)]
      exact hs1 k hk
  · intro hc
    constructor
    · simp [addThemeOp, hc]
    · simp [iaddOp, addThemeOp, hc]
  · intro hc
    constructor
    · simp [addThemeOp, hc]
    · simp [iaddOp, addThemeOp, hc]

/-- C8 counterexample: with a complete right operand `t2`, neither
`t1.add_theme(t2)` nor `t1 += t2` mutates `t1`: `add_theme` returns the
reference to `t2` with the store untouched, and `__iadd__` discards that
result, leaving `t1` bound to its old, different state — refuting the
unconditional "t1 += t2 and t1.add_theme(t2) mutate t1 in place". -/
theorem Theme.iadd_complete_does_not_mutate :
    (storeGet stC8 1).complete = true
    ∧ addThemeOp regAxis stC8 0 1 = (stC8, 1)
    ∧ iaddOp regAxis stC8 0 1 = (stC8, 0)
    ∧ storeGet stC8 0 ≠ storeGet stC8 1 := by
  refine ⟨rfl, rfl, rfl, ?_⟩
  decide

theorem Theme.add_ops_spec_witness :
    addThemeOp regAxis stC8 0 1 = (stC8, 1)
    ∧ iaddOp regAxis stC8 0 1 = (stC8, 0)
    ∧ addOp regAxis stC8 0 Operand.notTheme =
        Except.error "PlotnineError: Adding theme failed" :=
  ⟨((Theme.add_ops_spec regAxis stC8 0 1 (by decide) (by decide)).2.2.1 rfl).1,
   ((Theme.add_ops_spec regAxis stC8 0 1 (by decide) (by decide)).2.2.1 rfl).2,
   (Theme.add_ops_spec regAxis stC8 0 1 (by decide) (by decide)).2.2.2⟩

/-! ## Iteration order of `Themeables._dict` (claim C7) -/

theorem orderOK_sound_aux :
    ∀ (reg : List ClassInfo) (seen : List String), orderOK seen reg = true →
      ∀ l1 c l2, reg = l1 ++ c :: l2 → ∀ b ∈ c.mro, b ≠ c.name →
        b ∈ seen ++ l1.map ClassInfo.name := by
  intro reg
  induction reg with
  | nil =>
    intro seen _ l1 c l2 hsplit
    exact absurd hsplit (by cases l1 <;> simp)
  | cons c0 rest ih =>
    intro seen hOK l1 c l2 hsplit b hb hne
    rw [orderOK, Bool.and_eq_true] at hOK
    obtain ⟨h1, h2⟩ := hOK
    cases l1 with
    | nil =>
      simp only [List.nil_append, List.cons.injEq] at hsplit
      obtain ⟨hc0, _⟩ := hsplit
      subst hc0
      have := List.all_eq_true.mp h1 b hb
      rcases Bool.or_eq_true _ _ |>.mp this with h' | h'
      · exact absurd (of_decide_eq_true h') hne
      · simpa using of_decide_eq_true h'
    | cons x l1' =>
      simp only [List.cons_append, List.cons.injEq] at hsplit
      obtain ⟨hc0, hrest⟩ := hsplit
      subst hc0
      have := ih (seen ++ [c0.name]) h2 l1' c l2 hrest b hb hne
      simpa [List.append_assoc] using this

theorem orderOK_sound (reg : List ClassInfo) (h : orderOK [] reg = true) :
    DefinedBefore reg := by
  intro l1 c l2 hs b hb hne
  simpa using orderOK_sound_aux reg [] h l1 c l2 hs b hb hne

theorem occPrec_nil (A B : String) : OccPrec [] A B := by
  intro l1 l2 h
  cases l1 <;> simp_all

theorem occPrec_head_absurd (A B : String) (rest : List String)
    (h : OccPrec (B :: rest) A B) : False := by
  have := h [] rest rfl
  simp at this

theorem occPrec_tail (n A B : String) (rest : List String)
    (h : OccPrec (n :: rest) A B) (hn : n ≠ A) : OccPrec rest A B := by
  intro l1 l2 hsplit
  have hmem := h (n :: l1) l2 (by rw [hsplit]; rfl)
  rcases List.mem_cons.mp hmem with h' | h'
  · exact absurd h'.symm hn
  · exact h'

theorem occPrec_append_one (acc : List String) (x A B : String)
    (h : OccPrec acc A B) (hx : x = B → A ∈ acc) :
    OccPrec (acc ++ [x]) A B := by
  intro l1 l2 hsplit
  rcases List.eq_nil_or_concat l2 with h2 | ⟨l2', y, h2⟩
  · subst h2
    obtain ⟨ha, hb⟩ := List.append_inj' hsplit rfl
    injection hb with hxB _
    subst ha
    exact hx hxB
  · subst h2
    have hs2 : acc ++ [x] = (l1 ++ B :: l2') ++ [y] := by
      rw [hsplit]; simp
    obtain ⟨ha, _⟩ := List.append_inj' hs2 rfl
    exact h l1 l2' ha

theorem occPrec_append (l1 l2 : List String) (A B : String)
    (h1 : OccPrec l1 A B) (h2 : OccPrec l2 A B) :
    OccPrec (l1 ++ l2) A B := by
  intro m1 m2 hsplit
  rcases List.append_eq_append_iff.mp hsplit with ⟨t, hc, hb⟩ | ⟨t, ha, hd⟩
  · rw [hc]
    exact List.mem_append_right _ (h2 t m2 hb)
  · cases t with
    | nil =>
      simp only [List.nil_append] at hd
      exact absurd (h2 [] m2 hd.symm) (by simp)
    | cons x t' =>
      injection hd with hx ht'
      subst hx
      exact h1 m1 t' ha

theorem occPrec_reverse_of_occFoll (l : List String) (A B : String)
    (h : OccFollS l A B) : OccPrec l.reverse A B := by
  intro m1 m2 hsplit
  have hl : l = m2.reverse ++ B :: m1.reverse := by
    have hrev := congrArg List.reverse hsplit
    simpa [List.reverse_append] using hrev
  have hmem := h _ _ hl
  simpa using hmem

theorem occFoll_filter_map (p : ClassInfo → Bool) (A B : String) :
    ∀ (l : List ClassInfo),
      (∀ l1 cB l2, l = l1 ++ cB :: l2 → cB.name = B → p cB = true →
        ∃ cA ∈ l2, cA.name = A ∧ p cA = true) →
      OccFollS ((l.filter p).map ClassInfo.name) A B := by
  intro l
  induction l with
  | nil =>
    intro _ l1 l2 h
    exact absurd h (by cases l1 <;> simp)
  | cons c rest ih =>
    intro H
    have Hrest : ∀ l1 cB l2, rest = l1 ++ cB :: l2 → cB.name = B →
        p cB = true → ∃ cA ∈ l2, cA.name = A ∧ p cA = true := by
      intro l1 cB l2 hs hn hp
      exact H (c :: l1) cB l2 (by rw [hs]; rfl) hn hp
    by_cases hp : p c = true
    · intro m1 m2 hsplit
      rw [List.filter_cons_of_pos hp, List.map_cons] at hsplit
      cases m1 with
      | nil =>
        simp only [List.nil_append] at hsplit
        injection hsplit with h1 h2
        obtain ⟨cA, hmem, hnA, hpA⟩ := H [] c rest rfl h1 hp
        rw [← h2]
        exact List.mem_map.mpr ⟨cA, List.mem_filter.mpr ⟨hmem, hpA⟩, hnA⟩
      | cons x m1' =>
        simp only [List.cons_append] at hsplit
        injection hsplit with h1 h2
        exact ih Hrest m1' m2 h2
    · intro m1 m2 hsplit
      rw [List.filter_cons_of_neg (by simpa using hp)] at hsplit
      exact ih Hrest m1 m2 hsplit

theorem name_mem_hierarchy (reg : List ClassInfo) (c : ClassInfo) (k : String)
    (hc : c ∈ reg) (hk : k ∈ c.mro) : c.name ∈ hierarchy reg k := by
  unfold hierarchy
  exact List.mem_map.mpr ⟨c, List.mem_filter.mpr ⟨hc, by simpa using hk⟩, rfl⟩

theorem hierarchy_occPrec (reg : List ClassInfo) (A B : String)
    (hnd : (reg.map ClassInfo.name).Nodup)
    (horder : DefinedBefore reg)
    (htrans : ∀ c ∈ reg, ∀ c' ∈ reg, c'.name ∈ c.mro → ∀ b ∈ c'.mro, b ∈ c.mro)
    (hgen : ∃ cA ∈ reg, cA.name = A ∧ B ∈ cA.mro ∧ A ≠ B) :
    ∀ k, OccPrec ((hierarchy reg k).reverse) A B := by
  intro k
  obtain ⟨cA, hcAreg, hnameA, hBmro, hABne⟩ := hgen
  apply occPrec_reverse_of_occFoll
  unfold hierarchy
  apply occFoll_filter_map
  intro l1 cB l2 hsplit hnB hpB
  have hkB : k ∈ cB.mro := of_decide_eq_true hpB
  have hcBreg : cB ∈ reg := by
    rw [hsplit]
    exact List.mem_append_right _ (List.mem_cons_self _ _)
  have hkA : k ∈ cA.mro :=
    htrans cA hcAreg cB hcBreg (hnB.symm ▸ hBmro) k hkB
  have hcAl2 : cA ∈ l2 := by
    have hmem : cA ∈ l1 ∨ cA = cB ∨ cA ∈ l2 := by
      have hin := hcAreg
      rw [hsplit] at hin
      simpa using hin
    rcases hmem with h1 | h1 | h1
    · exfalso
      obtain ⟨u, v, huv⟩ := List.append_of_mem h1
      have hsplit2 : reg = u ++ cA :: (v ++ cB :: l2) := by
        rw [hsplit, huv]
        simp
      have hBne : B ≠ cA.name := by
        rw [hnameA]
        exact Ne.symm hABne
      have hBin : B ∈ u.map ClassInfo.name :=
        horder u cA (v ++ cB :: l2) hsplit2 B hBmro hBne
      have hnames : reg.map ClassInfo.name =
          u.map ClassInfo.name ++ cA.name ::
            (v.map ClassInfo.name ++ cB.name :: l2.map ClassInfo.name) := by
        rw [hsplit2]
        simp
      rw [hnames] at hnd
      have hdisj := List.disjoint_of_nodup_append hnd
      have hBlate : B ∈ cA.name ::
          (v.map ClassInfo.name ++ cB.name :: l2.map ClassInfo.name) := by
        rw [hnB]
        exact List.mem_cons_of_mem _
          (List.mem_append_right _ (List.mem_cons_self _ _))
      exact hdisj hBin hBlate
    · exfalso
      apply hABne
      rw [← hnameA, h1, hnB]
    · exact h1
  exact ⟨cA, hcAl2, hnameA, by simpa using hkA⟩

theorem mem_addName (s : Themeables) (acc : List String) (n x : String)
    (h : x ∈ acc) : x ∈ addName s acc n := by
  unfold addName
  split
  · exact List.mem_append_left _ h
  · exact h

theorem addName_self_mem (s : Themeables) (acc : List String) (n : String)
    (h : containsKey s n = true) : n ∈ addName s acc n := by
  unfold addName
  split
  · exact List.mem_append_right _ (List.mem_singleton.mpr rfl)
  · next hcond =>
    rcases not_and_or.mp hcond with h1 | h1
    · exact absurd h h1
    · exact not_not.mp h1

theorem foldNames_mem_mono (s : Themeables) (x : String) :
    ∀ (ns acc : List String), x ∈ acc → x ∈ foldNames s acc ns := by
  intro ns
  induction ns with
  | nil => intro acc h; exact h
  | cons n rest ih =>
    intro acc h
    exact ih _ (mem_addName s acc n x h)

theorem foldNames_mem_of_stream (s : Themeables) (x : String)
    (hx : containsKey s x = true) :
    ∀ (ns acc : List String), x ∈ ns → x ∈ foldNames s acc ns := by
  intro ns
  induction ns with
  | nil => intro acc h; cases h
  | cons n rest ih =>
    intro acc h
    by_cases he : n = x
    · subst he
      exact foldNames_mem_mono s n rest _ (addName_self_mem s acc n hx)
    · rcases List.mem_cons.mp h with h1 | h1
      · exact absurd h1.symm he
      · exact ih _ h1

theorem foldNames_occPrec (s : Themeables) (A B : String) (hAB : A ≠ B)
    (hA : containsKey s A = true) :
    ∀ (ns acc : List String), OccPrec acc A B →
      (A ∈ acc ∨ OccPrec ns A B) → OccPrec (foldNames s acc ns) A B := by
  intro ns
  induction ns with
  | nil => intro acc h1 _; exact h1
  | cons n rest ih =>
    intro acc h1 h2
    rcases h2 with h2 | h2
    · refine ih (addName s acc n) ?_ (Or.inl (mem_addName s acc n A h2))
      unfold addName
      split
      · exact occPrec_append_one acc n A B h1 (fun _ => h2)
      · exact h1
    · by_cases hnB : n = B
      · subst hnB
        exact (occPrec_head_absurd A n rest h2).elim
      · by_cases hnA : n = A
        · have hmemA : A ∈ addName s acc n := by
            rw [← hnA]
            exact addName_self_mem s acc n (by rw [hnA]; exact hA)
          refine ih (addName s acc n) ?_ (Or.inl hmemA)
          unfold addName
          split
          · exact occPrec_append_one acc n A B h1 (fun he => absurd he hnB)
          · exact h1
        · refine ih (addName s acc n) ?_
            (Or.inr (occPrec_tail n A B rest h2 hnA))
          unfold addName
          split
          · exact occPrec_append_one acc n A B h1 (fun he => absurd he hnB)
          · exact h1

theorem foldNames_append (s : Themeables) (acc l1 l2 : List String) :
    foldNames s acc (l1 ++ l2) = foldNames s (foldNames s acc l1) l2 := by
  simp [foldNames]

theorem dictOrder_eq_foldNames (reg : List ClassInfo) (s : Themeables) :
    Themeables.dictOrder reg s = foldNames s [] (flatStream reg) := by
  have hgen : ∀ (ks acc : List String),
      ks.foldl (fun acc k => foldNames s acc ((hierarchy reg k).reverse)) acc =
        foldNames s acc
          (ks.foldr (fun k r => (hierarchy reg k).reverse ++ r) []) := by
    intro ks
    induction ks with
    | nil => intro acc; rfl
    | cons k rest ih =>
      intro acc
      simp only [List.foldl_cons, List.foldr_cons]
      rw [ih, foldNames_append]
  exact hgen _ []

theorem mem_flatStream (reg : List ClassInfo) (x k : String)
    (hk : k ∈ reg.map ClassInfo.name) (hx : x ∈ (hierarchy reg k).reverse) :
    x ∈ flatStream reg := by
  unfold flatStream
  revert hk
  generalize reg.map ClassInfo.name = ks
  intro hk
  induction ks with
  | nil => cases hk
  | cons a rest ih =>
    simp only [List.foldr_cons]
    rcases List.mem_cons.mp hk with h1 | h1
    · subst h1
      exact List.mem_append_left _ hx
    · exact List.mem_append_right _ (ih h1)

theorem flatStream_occPrec (reg : List ClassInfo) (A B : String)
    (h : ∀ k, OccPrec ((hierarchy reg k).reverse) A B) :
    OccPrec (flatStream reg) A B := by
  unfold flatStream
  generalize reg.map ClassInfo.name = ks
  induction ks with
  | nil => exact occPrec_nil A B
  | cons a rest ih =>
    simp only [List.foldr_cons]
    exact occPrec_append _ _ _ _ (h a) ih

/-- C7: for every well-formed class table and every `Themeables` collection,
the `_dict` iteration order (behind `values()` and `items()`) yields names
from general to specific: a stored themeable `A` that is more general than a
stored themeable `B` (i.e. `B` is in `A`'s mro) appears in the order, and
every occurrence of `B` is preceded by `A`, so applying the themeables in
iteration order lets the most specific setting win. -/
theorem Themeables.dictOrder_general_before_specific
    (reg : List ClassInfo) (s : Themeables) (A B : String)
    (hnd : (reg.map ClassInfo.name).Nodup)
    (horder : DefinedBefore reg)
    (htrans : ∀ c ∈ reg, ∀ c' ∈ reg, c'.name ∈ c.mro → ∀ b ∈ c'.mro, b ∈ c.mro)
    (hself : ∀ c ∈ reg, c.name ∈ c.mro)
    (hA : containsKey s A = true) (hB : containsKey s B = true)
    (hgen : ∃ cA ∈ reg, cA.name = A ∧ B ∈ cA.mro ∧ A ≠ B)
    (hBreg : ∃ cB ∈ reg, cB.name = B) :
    A ∈ Themeables.dictOrder reg s
    ∧ B ∈ Themeables.dictOrder reg s
    ∧ OccPrec (Themeables.dictOrder reg s) A B := by
  obtain ⟨cA, hcAreg, hnameA, hBmro, hABne⟩ := hgen
  obtain ⟨cB, hcBreg, hnameB⟩ := hBreg
  rw [dictOrder_eq_foldNames]
  have hAstream : A ∈ flatStream reg := by
    apply mem_flatStream reg A A
    · exact List.mem_map.mpr ⟨cA, hcAreg, hnameA⟩
    · rw [List.mem_reverse]
      have hAm : A ∈ cA.mro := hnameA ▸ hself cA hcAreg
      have hmem := name_mem_hierarchy reg cA A hcAreg hAm
      exact hnameA ▸ hmem
  have hBstream : B ∈ flatStream reg := by
    apply mem_flatStream reg B B
    · exact List.mem_map.mpr ⟨cB, hcBreg, hnameB⟩
    · rw [List.mem_reverse]
      have hBm : B ∈ cB.mro := hnameB ▸ hself cB hcBreg
      have hmem := name_mem_hierarchy reg cB B hcBreg hBm
      exact hnameB ▸ hmem
  have hblocks : ∀ k, OccPrec ((hierarchy reg k).reverse) A B :=
    hierarchy_occPrec reg A B hnd horder htrans
      ⟨cA, hcAreg, hnameA, hBmro, hABne⟩
  refine ⟨?_, ?_, ?_⟩
  · exact foldNames_mem_of_stream s A hA (flatStream reg) [] hAstream
  · exact foldNames_mem_of_stream s B hB (flatStream reg) [] hBstream
  · exact foldNames_occPrec s A B hABne hA (flatStream reg) []
      (occPrec_nil A B) (Or.inr (flatStream_occPrec reg A B hblocks))

theorem Themeables.dictOrder_general_before_specific_witness :
    "axis_line" ∈ Themeables.dictOrder regAxis sGetp :=
  (Themeables.dictOrder_general_before_specific regAxis sGetp
    "axis_line" "axis_line_x" (by decide) (orderOK_sound regAxis (by decide))
    (by decide) (by decide) (by decide) (by decide) (by decide) (by decide)).1
